import Mathlib

/-!
Shallow embedding of the movie-request bot core (filename normalization,
fuzzy availability decision, request lifecycle, completion reconciler)
faithful to `src/utils.py`, `src/database.py`, `src/handlers.py` and
`src/config.py`, together with theorems settling the frozen claims.

Strings are modelled as `List Char` internally (ASCII semantics for the
character classes used by the Python regexes), wrapped into `String` at the
interfaces.  The similarity measures of the external `thefuzz` library are
parameters of the matching functions: the repository code only combines
their results.
-/

namespace MovieBot

/-- ASCII lowercasing of one character, as `str.lower` acts on the letters
`A`-`Z` (other characters are returned unchanged). -/
def lowerChar (c : Char) : Char :=
  if c = 'A' then 'a' else if c = 'B' then 'b' else if c = 'C' then 'c'
  else if c = 'D' then 'd' else if c = 'E' then 'e' else if c = 'F' then 'f'
  else if c = 'G' then 'g' else if c = 'H' then 'h' else if c = 'I' then 'i'
  else if c = 'J' then 'j' else if c = 'K' then 'k' else if c = 'L' then 'l'
  else if c = 'M' then 'm' else if c = 'N' then 'n' else if c = 'O' then 'o'
  else if c = 'P' then 'p' else if c = 'Q' then 'q' else if c = 'R' then 'r'
  else if c = 'S' then 's' else if c = 'T' then 't' else if c = 'U' then 'u'
  else if c = 'V' then 'v' else if c = 'W' then 'w' else if c = 'X' then 'x'
  else if c = 'Y' then 'y' else if c = 'Z' then 'z' else c

/-- Whitespace characters recognized by Python's `\s` (ASCII). -/
def isSpaceChar (c : Char) : Bool :=
  c = ' ' || c = '\t' || c = '\n' || c = '\r' || c = '\x0b' || c = '\x0c'

/-- Word characters recognized by Python's `\w` (ASCII): alphanumerics and
underscore. -/
def isWordChar (c : Char) : Bool :=
  c.isAlphanum || c = '_'

theorem lowerChar_eq_self (c : Char) (h1 : c ≠ 'A') (h2 : c ≠ 'B') (h3 : c ≠ 'C')
    (h4 : c ≠ 'D') (h5 : c ≠ 'E') (h6 : c ≠ 'F') (h7 : c ≠ 'G') (h8 : c ≠ 'H')
    (h9 : c ≠ 'I') (h10 : c ≠ 'J') (h11 : c ≠ 'K') (h12 : c ≠ 'L') (h13 : c ≠ 'M')
    (h14 : c ≠ 'N') (h15 : c ≠ 'O') (h16 : c ≠ 'P') (h17 : c ≠ 'Q') (h18 : c ≠ 'R')
    (h19 : c ≠ 'S') (h20 : c ≠ 'T') (h21 : c ≠ 'U') (h22 : c ≠ 'V') (h23 : c ≠ 'W')
    (h24 : c ≠ 'X') (h25 : c ≠ 'Y') (h26 : c ≠ 'Z') : lowerChar c = c := by
  unfold lowerChar
  rw [if_neg h1, if_neg h2, if_neg h3, if_neg h4, if_neg h5, if_neg h6, if_neg h7,
    if_neg h8, if_neg h9, if_neg h10, if_neg h11, if_neg h12, if_neg h13, if_neg h14,
    if_neg h15, if_neg h16, if_neg h17, if_neg h18, if_neg h19, if_neg h20, if_neg h21,
    if_neg h22, if_neg h23, if_neg h24, if_neg h25, if_neg h26]

theorem lowerChar_lowerChar (c : Char) : lowerChar (lowerChar c) = lowerChar c := by
  by_cases h1 : c = 'A'
  · subst h1; decide
  by_cases h2 : c = 'B'
  · subst h2; decide
  by_cases h3 : c = 'C'
  · subst h3; decide
  by_cases h4 : c = 'D'
  · subst h4; decide
  by_cases h5 : c = 'E'
  · subst h5; decide
  by_cases h6 : c = 'F'
  · subst h6; decide
  by_cases h7 : c = 'G'
  · subst h7; decide
  by_cases h8 : c = 'H'
  · subst h8; decide
  by_cases h9 : c = 'I'
  · subst h9; decide
  by_cases h10 : c = 'J'
  · subst h10; decide
  by_cases h11 : c = 'K'
  · subst h11; decide
  by_cases h12 : c = 'L'
  · subst h12; decide
  by_cases h13 : c = 'M'
  · subst h13; decide
  by_cases h14 : c = 'N'
  · subst h14; decide
  by_cases h15 : c = 'O'
  · subst h15; decide
  by_cases h16 : c = 'P'
  · subst h16; decide
  by_cases h17 : c = 'Q'
  · subst h17; decide
  by_cases h18 : c = 'R'
  · subst h18; decide
  by_cases h19 : c = 'S'
  · subst h19; decide
  by_cases h20 : c = 'T'
  · subst h20; decide
  by_cases h21 : c = 'U'
  · subst h21; decide
  by_cases h22 : c = 'V'
  · subst h22; decide
  by_cases h23 : c = 'W'
  · subst h23; decide
  by_cases h24 : c = 'X'
  · subst h24; decide
  by_cases h25 : c = 'Y'
  · subst h25; decide
  by_cases h26 : c = 'Z'
  · subst h26; decide
  have e := lowerChar_eq_self c h1 h2 h3 h4 h5 h6 h7 h8 h9 h10 h11 h12 h13 h14 h15
    h16 h17 h18 h19 h20 h21 h22 h23 h24 h25 h26
  rw [e, e]

/-! ### Pattern language

The quality/container regexes of `FilenameCleaner` use only literal
characters, two-character classes, and optional single-character pieces
(`[pi]`, `[.-]?`, `.?`, `s?`).  `Atom` covers exactly these.  The patterns
are applied to text that `clean_filename` has already lowercased, so the
`re.IGNORECASE` flag is equivalent to matching the lowercase literals
directly. -/

inductive Atom where
  | lit (c : Char)
  | cls (cs : List Char)
  | optCls (cs : List Char)
  | optLit (c : Char)
  | optAny
deriving DecidableEq

/-- Match a sequence of atoms against the front of the text, returning the
unconsumed remainder.  Optional atoms are greedy with backtracking, as in
Python's `re`.  `.` does not match a newline. -/
def matchAtoms : List Atom → List Char → Option (List Char)
  | [], s => some s
  | Atom.lit c :: as, x :: s => if x = c then matchAtoms as s else none
  | Atom.lit _ :: _, [] => none
  | Atom.cls cs :: as, x :: s => if cs.contains x then matchAtoms as s else none
  | Atom.cls _ :: _, [] => none
  | Atom.optCls cs :: as, x :: s =>
      if cs.contains x then
        match matchAtoms as s with
        | some r => some r
        | none => matchAtoms as (x :: s)
      else matchAtoms as (x :: s)
  | Atom.optCls _ :: as, [] => matchAtoms as []
  | Atom.optLit c :: as, x :: s =>
      if x = c then
        match matchAtoms as s with
        | some r => some r
        | none => matchAtoms as (x :: s)
      else matchAtoms as (x :: s)
  | Atom.optLit _ :: as, [] => matchAtoms as []
  | Atom.optAny :: as, x :: s =>
      if x = '\n' then matchAtoms as (x :: s)
      else
        match matchAtoms as s with
        | some r => some r
        | none => matchAtoms as (x :: s)
  | Atom.optAny :: as, [] => matchAtoms as []

/-- A pattern: a sequence of atoms, optionally anchored at the end of the
text by `$` (which in Python also matches just before a final newline). -/
structure Pat where
  atoms : List Atom
  anchorEnd : Bool
deriving DecidableEq

def matchPat (p : Pat) (s : List Char) : Option (List Char) :=
  match matchAtoms p.atoms s with
  | none => none
  | some rest =>
      if p.anchorEnd then
        if rest = [] ∨ rest = ['\n'] then some rest else none
      else some rest

/-- One pass of `re.sub(pattern, '', text)`: scan left to right, removing
each non-overlapping match and continuing after it.  `m` returns the text
remaining after a match at the current position.  Fueled to keep the
recursion structural; `scrub` supplies fuel equal to the text length, which
suffices because every successful match consumes at least one character
(enforced by the length test). -/
def scrubFuel (m : List Char → Option (List Char)) : Nat → List Char → List Char
  | 0, s => s
  | _ + 1, [] => []
  | n + 1, x :: s =>
      match m (x :: s) with
      | some rest =>
          if rest.length < s.length + 1 then scrubFuel m n rest
          else x :: scrubFuel m n s
      | none => x :: scrubFuel m n s

def scrub (m : List Char → Option (List Char)) (s : List Char) : List Char :=
  scrubFuel m s.length s

/-- Matcher for the group-tag pattern `\[[^\]]+\]`: an opening bracket, at
least one non-`]` character, then a closing bracket. -/
def scanClose : List Char → Option (List Char)
  | [] => none
  | x :: s => if x = ']' then some s else scanClose s

def matchGroup : List Char → Option (List Char)
  | [] => none
  | x :: s =>
      if x = '[' then
        match s with
        | [] => none
        | y :: t => if y = ']' then none else scanClose t
      else none

/-- Literal atoms from a string. -/
def lits (s : String) : List Atom :=
  s.toList.map Atom.lit

/-- `FilenameCleaner.QUALITY_PATTERNS`, in source order.  Patterns are
matched case-insensitively in the source; here the text is lowercased
before they are applied, so the atoms use lowercase literals. -/
def QUALITY_PATTERNS : List Pat :=
  [⟨lits "1080" ++ [Atom.cls ['p', 'i']], false⟩,
   ⟨lits "720" ++ [Atom.cls ['p', 'i']], false⟩,
   ⟨lits "2160" ++ [Atom.cls ['p', 'i']], false⟩,
   ⟨lits "4k", false⟩, ⟨lits "8k", false⟩,
   ⟨lits "hevc", false⟩, ⟨lits "x264", false⟩, ⟨lits "x265", false⟩,
   ⟨lits "10" ++ [Atom.optAny] ++ lits "bit", false⟩,
   ⟨lits "8" ++ [Atom.optAny] ++ lits "bit", false⟩,
   ⟨lits "web" ++ [Atom.optCls ['.', '-']] ++ lits "dl", false⟩,
   ⟨lits "web" ++ [Atom.optCls ['.', '-']] ++ lits "rip", false⟩,
   ⟨lits "blu" ++ [Atom.optCls ['.', '-']] ++ lits "ray", false⟩,
   ⟨lits "bdrip", false⟩,
   ⟨lits "hdtv", false⟩,
   ⟨lits "hd" ++ [Atom.optCls ['.', '-']] ++ lits "rip", false⟩,
   ⟨lits "dvd" ++ [Atom.optCls ['.', '-']] ++ lits "rip", false⟩,
   ⟨lits "dual" ++ [Atom.optCls [' ', '.', '-']] ++ lits "audio", false⟩,
   ⟨lits "multi" ++ [Atom.optCls [' ', '.', '-']] ++ lits "audio", false⟩,
   ⟨lits "truehd", false⟩,
   ⟨lits "dts" ++ [Atom.optCls ['.', '-']] ++ lits "hd", false⟩,
   ⟨lits "ac3", false⟩, ⟨lits "aac", false⟩,
   ⟨lits "sub" ++ [Atom.optLit 's'], false⟩,
   ⟨lits "esub", false⟩,
   ⟨lits "eng" ++ [Atom.optCls ['.', '-']] ++ lits "sub", false⟩]

/-- `FilenameCleaner.CONTAINER_PATTERNS`: extensions anchored at the end. -/
def CONTAINER_PATTERNS : List Pat :=
  [⟨lits ".mkv", true⟩, ⟨lits ".mp4", true⟩, ⟨lits ".avi", true⟩,
   ⟨lits ".mov", true⟩, ⟨lits ".wmv", true⟩, ⟨lits ".flv", true⟩,
   ⟨lits ".webm", true⟩]

/-- The stop-word set of `clean_filename`. -/
def STOP_WORDS : List (List Char) :=
  ["the", "a", "an", "and", "or", "but", "in", "on", "at", "to", "for",
   "of", "with", "by"].map String.toList

def applyPats (ps : List Pat) (s : List Char) : List Char :=
  ps.foldl (fun acc p => scrub (matchPat p) acc) s

/-- `re.sub(r'\s+', ' ', ...)`: each run of whitespace becomes one space. -/
def collapseWs : List Char → List Char
  | [] => []
  | [x] => if isSpaceChar x then [' '] else [x]
  | x :: y :: s =>
      if isSpaceChar x then
        if isSpaceChar y then collapseWs (y :: s)
        else ' ' :: collapseWs (y :: s)
      else x :: collapseWs (y :: s)

/-- `str.strip()`: drop leading and trailing whitespace. -/
def stripWs (s : List Char) : List Char :=
  ((s.dropWhile isSpaceChar).reverse.dropWhile isSpaceChar).reverse

/-- `str.split()`: split on whitespace runs, discarding empty pieces.  The
accumulator holds the current word reversed. -/
def splitWsAux : List Char → List Char → List (List Char)
  | [], acc => if acc = [] then [] else [acc.reverse]
  | x :: s, acc =>
      if isSpaceChar x then
        if acc = [] then splitWsAux s [] else acc.reverse :: splitWsAux s []
      else splitWsAux s (x :: acc)

def splitWs (s : List Char) : List (List Char) :=
  splitWsAux s []

/-- `' '.join(words)`. -/
def joinWords : List (List Char) → List Char
  | [] => []
  | [w] => w
  | w :: ws => w ++ ' ' :: joinWords ws

/-- The token list produced by `FilenameCleaner.clean_filename`: lowercase,
remove group tags, remove quality patterns, remove container extensions,
replace `[^\w\s]` by spaces, collapse and strip whitespace, split into
words, and drop stop words. -/
def cleanCore (s : List Char) : List (List Char) :=
  let lowered := s.map lowerChar
  let degrouped := scrub matchGroup lowered
  let dequalified := applyPats QUALITY_PATTERNS degrouped
  let decontained := applyPats CONTAINER_PATTERNS dequalified
  let spaced := decontained.map fun c => if isWordChar c || isSpaceChar c then c else ' '
  (splitWs (stripWs (collapseWs spaced))).filter fun w => !(STOP_WORDS.contains w)

/-- `FilenameCleaner.clean_filename`. -/
def clean_filename (s : String) : String :=
  if s = "" then "" else ⟨joinWords (cleanCore s.toList)⟩

/-- `FilenameCleaner.extract_year_from_filename`: first standalone
`19xx`/`20xx` four-digit token (`\b(19[0-9]{2}|20[0-9]{2})\b`). -/
def yearAt : List Char → Option Nat
  | [] => none
  | [_] => none
  | [_, _] => none
  | [_, _, _] => none
  | a :: b :: c :: d :: rest =>
      if ((a == '1' && b == '9') || (a == '2' && b == '0')) && c.isDigit && d.isDigit &&
          (match rest with | [] => true | y :: _ => !(isWordChar y)) then
        some (1000 * (a.toNat - 48) + 100 * (b.toNat - 48) +
              10 * (c.toNat - 48) + (d.toNat - 48))
      else none

/-- `\b` before a digit: at the start of the text or after a non-word
character. -/
def atBoundary : Option Char → Bool
  | none => true
  | some p => !(isWordChar p)

def extractYearGo : Option Char → List Char → Option Nat
  | _, [] => none
  | prev, x :: rest =>
      if atBoundary prev then
        match yearAt (x :: rest) with
        | some y => some y
        | none => extractYearGo (some x) rest
      else extractYearGo (some x) rest

def extract_year (s : String) : Option Nat :=
  extractYearGo none s.toList

/-! ### Matching engine (`FuzzyMatcher.match_movie`)

The three similarity measures come from the external `thefuzz` library; the
repository only combines their integer results (each in `[0,100]`), so they
are parameters `fset`, `fsort`, `fpart`.  Scores are exact rationals
standing for the Python floats; the weights `0.5`, `0.3`, `0.2` and the
halving penalty are exactly representable.  A candidate record models a
legacy document: `filename` read with `.get('filename','')`, and `year`
distinguishing an absent key (`none`), a key holding null (`some none`) and
an integer (`some (some y)`).  Python raises `TypeError` on
`abs(year - None)`; that failure is modelled by `Option.none` results. -/

structure LegacyMovie where
  filename : Option String
  year : Option (Option Int)
deriving DecidableEq

def weightedScore (fset fsort fpart : String → String → Nat)
    (ct cl : String) : ℚ :=
  (fset ct cl : ℚ) * (0.5 : ℚ) + (fsort ct cl : ℚ) * (0.3 : ℚ) +
    (fpart ct cl : ℚ) * (0.2 : ℚ)

/-- The per-candidate score after the year reconciliation of the source:
`none` is the `TypeError` raised when the query year is truthy and the
candidate's `year` key holds null. -/
def candScore (fset fsort fpart : String → String → Nat) (ct : String)
    (year : Option Int) (m : LegacyMovie) : Option ℚ :=
  let s0 := weightedScore fset fsort fpart ct (clean_filename (m.filename.getD ""))
  match year with
  | none => some s0
  | some y =>
      if y = 0 then some s0
      else
        match m.year with
        | none => some s0
        | some none => none
        | some (some ry) => some (if 2 < (y - ry).natAbs then s0 * (0.5 : ℚ) else s0)

def matchGo (fset fsort fpart : String → String → Nat) (θ : Int) (ct : String)
    (year : Option Int) :
    List LegacyMovie → ℚ → Option LegacyMovie → Option (Bool × Option LegacyMovie)
  | [], best, bm => some (if (θ : ℚ) ≤ best then (true, bm) else (false, none))
  | m :: rest, best, bm =>
      match candScore fset fsort fpart ct year m with
      | none => none
      | some s =>
          if best < s then matchGo fset fsort fpart θ ct year rest s (some m)
          else matchGo fset fsort fpart θ ct year rest best bm

/-- `FuzzyMatcher.match_movie`.  Result `none` models a raised
`TypeError`; `some (found, best)` is the returned pair. -/
def match_movie (fset fsort fpart : String → String → Nat) (θ : Int)
    (title : String) (year : Option Int) (legacy : List LegacyMovie) :
    Option (Bool × Option LegacyMovie) :=
  if legacy = [] then some (false, none)
  else matchGo fset fsort fpart θ (clean_filename title) year legacy 0 none

/-! ### Request lifecycle (`DatabaseManager`)

A request document; `updated_at` is stamped by the source on status
transitions but read by nothing in this core, so it is not modelled.
`created_at` is a logical timestamp. -/

inductive Status where
  | pending
  | completed
  | rejected
deriving DecidableEq

structure Request where
  req_id : Nat
  user_id : Int
  tmdb_id : Nat
  title : String
  year : Option Int
  status : Status
  created_at : Nat
deriving DecidableEq

/-- `DatabaseManager.find_pending_by_tmdb_id`. -/
def find_pending_by_tmdb_id (reqs : List Request) (tid : Nat) : List Request :=
  reqs.filter fun r => r.tmdb_id == tid && r.status == Status.pending

/-- `DatabaseManager.update_request_status`: `update_one` by `_id` updates
the first matching document. -/
def update_request_status : List Request → Nat → Status → List Request
  | [], _, _ => []
  | r :: rs, rid, st =>
      if r.req_id = rid then { r with status := st } :: rs
      else r :: update_request_status rs rid st

/-- Insertion into a list kept in descending `created_at` order. -/
def insertDesc (r : Request) : List Request → List Request
  | [] => [r]
  | x :: s => if x.created_at ≤ r.created_at then r :: x :: s else x :: insertDesc r s

/-- `.sort("created_at", -1)`. -/
def sortByCreatedDesc (l : List Request) : List Request :=
  l.foldr insertDesc []

/-- `DatabaseManager.check_user_quota` with quota
`config.MAX_PENDING_REQUESTS`: up to `quota` pending requests of the user,
most recent first; `can_request` iff their number is below the quota. -/
def check_user_quota (quota : Nat) (reqs : List Request) (uid : Int) :
    Bool × Nat × List Request :=
  let limited :=
    (sortByCreatedDesc (reqs.filter fun r =>
      r.user_id == uid && r.status == Status.pending)).take quota
  (decide (limited.length < quota), limited.length, limited)

/-- Database state: a fresh-`_id` counter, a logical clock for
`datetime.utcnow()` stamps, and the `requests` collection in natural
(insertion) order. -/
structure DBState where
  nextId : Nat
  clock : Nat
  reqs : List Request
deriving DecidableEq

/-- `DatabaseManager.create_request`: unconditionally insert a new pending
request; returns its id. -/
def create_request (db : DBState) (uid : Int) (tid : Nat) (title : String)
    (year : Option Int) : Nat × DBState :=
  (db.nextId,
   ⟨db.nextId + 1, db.clock + 1,
    db.reqs ++ [⟨db.nextId, uid, tid, title, year, Status.pending, db.clock⟩]⟩)

/-- `DatabaseManager.delete_request`: `delete_one` removes the first
document matching both the id and the user; returns whether one was
removed. -/
def delete_request (reqs : List Request) (rid : Nat) (uid : Int) :
    Bool × List Request :=
  (reqs.any fun r => r.req_id == rid && r.user_id == uid,
   reqs.eraseP fun r => r.req_id == rid && r.user_id == uid)

/-! ### Completion reconciler (`handle_channel_post`) -/

/-- Attempt of `re.search(r'TMDB[:_\- ]*(\d+)', text, re.IGNORECASE)` at
one position: the label, optional separators, then at least one digit. -/
def tmdbAt : List Char → Option Nat
  | t :: m :: d :: b :: rest =>
      if lowerChar t == 't' && lowerChar m == 'm' && lowerChar d == 'd' &&
          lowerChar b == 'b' then
        let after := rest.dropWhile fun c => c == ':' || c == '_' || c == '-' || c == ' '
        let digits := after.takeWhile Char.isDigit
        if digits = [] then none
        else some (digits.foldl (fun a c => a * 10 + (c.toNat - 48)) 0)
      else none
  | _ => none

/-- Leftmost match of the TMDB-tag pattern. -/
def extractTmdbId : List Char → Option Nat
  | [] => none
  | x :: s =>
      match tmdbAt (x :: s) with
      | some n => some n
      | none => extractTmdbId s

/-- The fuzzy fallback of `handle_channel_post` (no TMDB tag found).
`handlers.py` never imports `fuzz`, so the first statement of the loop
body that computes a similarity, `fuzz.token_set_ratio(...)`, raises
`NameError` on the first scanned pending request — before any status
update; `none` models that raise.  The loop therefore finishes normally
exactly when it has nothing to scan: empty normalized text
(`if cleaned_text:`) or no pending request in the bounded
`to_list(length=100)` snapshot.  No similarity score and no completion
ever happens on this path. -/
def fuzzyFallback (text : String) (reqs : List Request) :
    Option (List Request × Bool) :=
  if clean_filename text = "" then some (reqs, false)
  else
    match (reqs.filter fun r => r.status == Status.pending).take 100 with
    | [] => some (reqs, true)
    | _ :: _ => none

/-- The state change of `handle_channel_post` on the request collection:
`some (requests, fuzzyRan)` on normal return (the flag records whether the
fuzzy fallback branch ran), `none` for a raised error.  The explicit-tag
path completes every pending request with the extracted TMDB id and
returns; the fallback raises `NameError` as soon as it would score a
request, because `fuzz` is not imported in `handlers.py`. -/
def handle_channel_post (text : String) (reqs : List Request) :
    Option (List Request × Bool) :=
  match extractTmdbId text.toList with
  | some tid =>
      some ((find_pending_by_tmdb_id reqs tid).foldl
        (fun s r => update_request_status s r.req_id Status.completed) reqs,
       false)
  | none => fuzzyFallback text reqs

/-! ### Lifecycle operation sequences -/

/-- The three request-lifecycle operations of claim C4. -/
inductive LifeOp where
  | create (uid : Int) (tid : Nat) (title : String) (year : Option Int)
  | cancel (rid : Nat) (uid : Int)
  | setStatus (rid : Nat) (st : Status)
deriving DecidableEq

/-- One lifecycle operation, with `create_request` exactly as in the
source: an unconditional insert. -/
def rawStep (db : DBState) : LifeOp → DBState
  | LifeOp.create uid tid title year => (create_request db uid tid title year).2
  | LifeOp.cancel rid uid => { db with reqs := (delete_request db.reqs rid uid).2 }
  | LifeOp.setStatus rid st => { db with reqs := update_request_status db.reqs rid st }

/-- One lifecycle operation with the admission pattern of
`handle_movie_request`: `create_request` runs only when `check_user_quota`
granted `can_request`. -/
def guardedStep (quota : Nat) (db : DBState) : LifeOp → DBState
  | LifeOp.create uid tid title year =>
      if (check_user_quota quota db.reqs uid).1 then
        (create_request db uid tid title year).2
      else db
  | LifeOp.cancel rid uid => { db with reqs := (delete_request db.reqs rid uid).2 }
  | LifeOp.setStatus rid st => { db with reqs := update_request_status db.reqs rid st }

/-- Number of requests of a user with status `pending`. -/
def pendingCount (reqs : List Request) (uid : Int) : Nat :=
  (reqs.filter fun r => r.user_id == uid && r.status == Status.pending).length

def emptyDB : DBState := ⟨0, 0, []⟩

/-! ### Lemmas about `update_request_status` and the completion loops -/

theorem update_map_req_id (reqs : List Request) (rid : Nat) (st : Status) :
    (update_request_status reqs rid st).map Request.req_id =
      reqs.map Request.req_id := by
  induction reqs with
  | nil => rfl
  | cons r rs ih =>
      by_cases h : r.req_id = rid
      · simp [update_request_status, h]
      · simp [update_request_status, h, ih]

/-- With unique `_id`s, updating the first match is the same as updating
every match. -/
theorem update_eq_map (reqs : List Request) (rid : Nat) (st : Status)
    (h : (reqs.map Request.req_id).Nodup) :
    update_request_status reqs rid st =
      reqs.map fun r => if r.req_id = rid then { r with status := st } else r := by
  induction reqs with
  | nil => rfl
  | cons r rs ih =>
      rw [List.map_cons, List.nodup_cons] at h
      by_cases hr : r.req_id = rid
      · rw [← hr] at *
        have : ∀ x ∈ rs, (if x.req_id = r.req_id then { x with status := st } else x) = x := by
          intro x hx
          have : x.req_id ≠ r.req_id := fun he => h.1 (he ▸ List.mem_map_of_mem Request.req_id hx)
          simp [this]
        simp [update_request_status, List.map_congr_left this]
      · simp [update_request_status, hr, ih h.2]

/-- The conditional completion loop (run once per element of a snapshot
`l`, testing the snapshot element and updating the live state by its id) is
a single map over the state, provided ids are unique. -/
theorem foldl_complete_eq_map (P : Request → Bool) (l : List Request)
    (reqs : List Request) (h : (reqs.map Request.req_id).Nodup) :
    l.foldl
      (fun s r =>
        if P r then update_request_status s r.req_id Status.completed else s)
      reqs =
    reqs.map fun r0 =>
      if r0.req_id ∈ (l.filter P).map Request.req_id then
        { r0 with status := Status.completed }
      else r0 := by
  induction l generalizing reqs with
  | nil =>
      simp only [List.foldl_nil, List.filter_nil, List.map_nil, List.not_mem_nil,
        if_false]
      exact (List.map_id reqs).symm
  | cons a l' ih =>
      rw [List.foldl_cons]
      by_cases hP : P a = true
      · rw [if_pos hP, update_eq_map reqs a.req_id Status.completed h]
        have hnd : ((reqs.map fun r =>
            if r.req_id = a.req_id then { r with status := Status.completed } else r).map
              Request.req_id).Nodup := by
          rw [← update_eq_map reqs a.req_id Status.completed h, update_map_req_id]
          exact h
        rw [ih _ hnd, List.map_map]
        refine List.map_congr_left ?_
        intro r0 _
        simp only [Function.comp_apply, List.filter_cons, hP]
        by_cases hid : r0.req_id = a.req_id
        · simp [hid]
        · have e1 : (if r0.req_id = a.req_id then
              { r0 with status := Status.completed } else r0) = r0 := if_neg hid
          rw [e1]
          have e2 : r0.req_id ∈ a.req_id :: (l'.filter P).map Request.req_id ↔
              r0.req_id ∈ (l'.filter P).map Request.req_id := by
            rw [List.mem_cons]
            exact or_iff_right hid
          exact (if_congr e2 rfl rfl).symm
      · rw [if_neg hP, ih _ h]
        simp only [List.filter_cons, hP]
        rfl

/-- Transfer membership of an id in a filtered snapshot back to the request
itself, using uniqueness of ids. -/
theorem mem_filter_map_id (reqs l : List Request) (P : Request → Bool)
    (hl : l.Sublist reqs) (h : (reqs.map Request.req_id).Nodup)
    (r0 : Request) (hr0 : r0 ∈ reqs) :
    r0.req_id ∈ (l.filter P).map Request.req_id ↔ (r0 ∈ l ∧ P r0 = true) := by
  constructor
  · intro hm
    rcases List.mem_map.mp hm with ⟨r', hr', hid⟩
    rcases List.mem_filter.mp hr' with ⟨hrl, hrP⟩
    have : r' = r0 :=
      List.inj_on_of_nodup_map h (hl.subset hrl) hr0 hid
    subst this
    exact ⟨hrl, hrP⟩
  · intro ⟨hm, hP⟩
    exact List.mem_map_of_mem Request.req_id (List.mem_filter.mpr ⟨hm, hP⟩)

theorem foldl_complete_eq_map_all (l reqs : List Request)
    (h : (reqs.map Request.req_id).Nodup) :
    l.foldl (fun s r => update_request_status s r.req_id Status.completed) reqs =
      reqs.map fun r0 =>
        if r0.req_id ∈ l.map Request.req_id then
          { r0 with status := Status.completed }
        else r0 := by
  have h1 := foldl_complete_eq_map (fun _ => true) l reqs h
  rw [List.filter_true] at h1
  exact h1

/-! ## Claim theorems -/

/-- C2, confirmed: when the event text carries an explicit TMDB tag (the
first match of `TMDB[:_\- ]*(\d+)` yielding id `tid`), the reconciler
returns normally, transitions exactly the pending requests with that TMDB
id to completed, leaves everything else unchanged, and never invokes the
fuzzy matching fallback. -/
theorem c2_tag_completion (text : String) (reqs : List Request) (tid : Nat)
    (hext : extractTmdbId text.toList = some tid)
    (hids : (reqs.map Request.req_id).Nodup) :
    handle_channel_post text reqs =
      some (reqs.map fun r =>
        if r.tmdb_id = tid ∧ r.status = Status.pending then
          { r with status := Status.completed }
        else r,
      false) := by
  unfold handle_channel_post
  rw [hext]
  show some ((find_pending_by_tmdb_id reqs tid).foldl
      (fun s r => update_request_status s r.req_id Status.completed) reqs,
    false) = _
  rw [foldl_complete_eq_map_all (find_pending_by_tmdb_id reqs tid) reqs hids]
  refine congrArg (fun l => some (l, false)) ?_
  refine List.map_congr_left ?_
  intro r0 hr0
  have hm := mem_filter_map_id reqs reqs
    (fun r => r.tmdb_id == tid && r.status == Status.pending)
    (List.Sublist.refl reqs) hids r0 hr0
  have e2 : r0.req_id ∈ (find_pending_by_tmdb_id reqs tid).map Request.req_id ↔
      (r0.tmdb_id = tid ∧ r0.status = Status.pending) := by
    simp only [find_pending_by_tmdb_id]
    rw [hm]
    simp [hr0]
  exact if_congr e2 rfl rfl

theorem yearAt_ge (l : List Char) (y : Nat) (h : yearAt l = some y) : 1000 ≤ y := by
  cases l with
  | nil => simp [yearAt] at h
  | cons a t =>
  cases t with
  | nil => simp [yearAt] at h
  | cons b t =>
  cases t with
  | nil => simp [yearAt] at h
  | cons c t =>
  cases t with
  | nil => simp [yearAt] at h
  | cons d rest =>
  simp only [yearAt] at h
  split at h
  case isTrue hc =>
    have hy : 1000 * (a.toNat - 48) + 100 * (b.toNat - 48) + 10 * (c.toNat - 48) +
        (d.toNat - 48) = y := by injection h
    simp only [Bool.and_eq_true, Bool.or_eq_true, beq_iff_eq] at hc
    have ha : a = '1' ∨ a = '2' := by
      rcases hc.1.1.1 with h1 | h2
      · exact Or.inl h1.1
      · exact Or.inr h2.1
    have ha' : 49 ≤ a.toNat := by
      rcases ha with h | h <;> subst h <;> decide
    omega
  case isFalse => exact absurd h (by simp)

theorem extractYearGo_ge (l : List Char) (p : Option Char) (y : Nat)
    (h : extractYearGo p l = some y) : 1000 ≤ y := by
  induction l generalizing p with
  | nil => simp [extractYearGo] at h
  | cons x rest ih =>
      rw [extractYearGo] at h
      split at h
      case isTrue =>
        cases hy : yearAt (x :: rest) with
        | some v =>
            rw [hy] at h
            injection h with h
            exact h ▸ yearAt_ge _ v hy
        | none =>
            rw [hy] at h
            exact ih (some x) h
      case isFalse => exact ih (some x) h

/-- `extract_year` never returns 0 (its regex only accepts years
1900-2099), so a truthy extracted year is exactly a present one. -/
theorem extract_year_ne_zero (s : String) : extract_year s ≠ some 0 := by
  intro h
  have := extractYearGo_ge s.toList none 0 h
  omega

/-- Witness for C2, the end-to-end scenario of the specification: text
`"TMDB:4523 Movie.Name.1080p.mkv"` with one pending request with TMDB id
4523 completes that request without fuzzy matching. -/
theorem c2_tag_completion_witness :
    handle_channel_post "TMDB:4523 Movie.Name.1080p.mkv"
      [⟨0, 7, 4523, "Movie Name", some 2023, Status.pending, 0⟩] =
      some ([⟨0, 7, 4523, "Movie Name", some 2023, Status.completed, 0⟩], false) := by
  have h := c2_tag_completion "TMDB:4523 Movie.Name.1080p.mkv"
    [⟨0, 7, 4523, "Movie Name", some 2023, Status.pending, 0⟩] 4523
    (by decide) (by decide)
  rw [h]
  decide

/-- C3, code bug: the fallback path is dead.  `handlers.py` uses
`fuzz.token_set_ratio` but never imports `fuzz`, so on the specification's
own fallback scenario — ingestion text `"Movie Name 2023 WEB-DL"` with no
TMDB tag and one pending request `{title: "Movie Name", year: 2023}` — the
handler raises `NameError` (modelled `none`) on the loop's first iteration,
before any status update: the request is never accepted, although the
claim's token-set-ratio/year condition is exactly what the loop was written
to test. -/
theorem c3_fallback_dead :
    extractTmdbId "Movie Name 2023 WEB-DL".toList = none ∧
    handle_channel_post "Movie Name 2023 WEB-DL"
      [⟨0, 7, 4523, "Movie Name", some 2023, Status.pending, 0⟩] = none := by
  refine ⟨by decide, by decide⟩


/-- C6, counterexample: on `"Movie.Name.1080p.BluRay.x264-GROUP.mkv"` the
normalizer does not yield the token sequence `["movie","name"]` claimed:
the hyphen-attached release group survives, because only bracketed group
tags are stripped. -/
theorem c6_counterexample :
    clean_filename "Movie.Name.1080p.BluRay.x264-GROUP.mkv" ≠ "movie name" := by
  decide

/-- C6, amended: the normalization of
`"Movie.Name.1080p.BluRay.x264-GROUP.mkv"` contains neither `"1080p"` nor
`"bluray"` nor `"x264"` nor a bracketed group tag, and yields the token
sequence `["movie", "name", "group"]` — the unbracketed release-group word
is kept. -/
theorem c6_descriptor_stripping :
    cleanCore "Movie.Name.1080p.BluRay.x264-GROUP.mkv".toList =
      ["movie".toList, "name".toList, "group".toList] ∧
    clean_filename "Movie.Name.1080p.BluRay.x264-GROUP.mkv" = "movie name group" ∧
    ¬ List.IsInfix "1080p".toList
      (clean_filename "Movie.Name.1080p.BluRay.x264-GROUP.mkv").toList ∧
    ¬ List.IsInfix "bluray".toList
      (clean_filename "Movie.Name.1080p.BluRay.x264-GROUP.mkv").toList ∧
    ¬ List.IsInfix "x264".toList
      (clean_filename "Movie.Name.1080p.BluRay.x264-GROUP.mkv").toList ∧
    ('[' ∈ (clean_filename "Movie.Name.1080p.BluRay.x264-GROUP.mkv").toList) = False := by
  refine ⟨by decide, by decide, by decide, by decide, by decide, by decide⟩

/-- C10, confirmed: descriptor stripping applies to arbitrary substrings,
not only standalone tokens: the subtitle pattern `Subs?` matches inside the
genuine title word `"Subway"`, which normalizes to the single token
`["way"]`. -/
theorem c10_subway_mangled :
    cleanCore "Subway".toList = ["way".toList] ∧
    clean_filename "Subway" = "way" ∧ clean_filename "Subway" ≠ "subway" := by
  refine ⟨by decide, by decide, by decide⟩

/-- C5, counterexample: normalization is not idempotent.  Stripping the
subtitle tag `sub` from `"ssubub"` creates a fresh occurrence: the first
pass yields `"sub"`, and normalizing again strips it to `""`. -/
theorem c5_counterexample :
    ¬ clean_filename (clean_filename "ssubub") = clean_filename "ssubub" := by
  decide

/-- C4, counterexample: `create_request` inserts unconditionally, so a
sequence of four `createRequest` calls by one requester drives that
requester's pending count to 4, above the default quota of 3. -/
theorem c4_counterexample :
    3 < pendingCount
      ((List.replicate 4 (LifeOp.create 1 5 "t" none)).foldl rawStep emptyDB).reqs 1 := by
  decide

/-- C8, counterexample: `delete_request` filters only on `_id` and
`user_id`, not on status: a request that is already completed is removed by
its owner's cancellation, contradicting "is still pending". -/
theorem c8_counterexample :
    (delete_request [⟨0, 1, 5, "t", none, Status.completed, 0⟩] 0 1).1 = true ∧
    (delete_request [⟨0, 1, 5, "t", none, Status.completed, 0⟩] 0 1).2 = [] := by
  refine ⟨by decide, by decide⟩

/-- C7, counterexample: `match_movie` is not total.  With a truthy query
year and a candidate whose `year` key holds null, `abs(year - None)` raises
`TypeError` (modelled as `none`). -/
theorem c7_counterexample :
    match_movie (fun _ _ => 100) (fun _ _ => 100) (fun _ _ => 100) 90 "a"
      (some 2000) [⟨some "b", some none⟩] = none := by
  decide

/-- The year-mismatch penalty condition of `match_movie`: both years known
(query year truthy, candidate `year` key holding an integer) and more than
2 apart. -/
def yearPenalty : Option Int → Option (Option Int) → Bool
  | some y, some (some ry) => decide (y ≠ 0 ∧ 2 < (y - ry).natAbs)
  | _, _ => false

/-- The score `match_movie` actually compares against the threshold: the
weighted sum, halved on a year mismatch. -/
def penalizedScore (fset fsort fpart : String → String → Nat) (ct : String)
    (year : Option Int) (m : LegacyMovie) : ℚ :=
  weightedScore fset fsort fpart ct (clean_filename (m.filename.getD "")) *
    (if yearPenalty year m.year then (0.5 : ℚ) else 1)

theorem candScore_eq_none_iff (fset fsort fpart : String → String → Nat)
    (ct : String) (year : Option Int) (m : LegacyMovie) :
    candScore fset fsort fpart ct year m = none ↔
      (∃ y, year = some y ∧ y ≠ 0) ∧ m.year = some none := by
  cases year with
  | none => simp [candScore]
  | some y =>
      by_cases hy : y = 0
      · subst hy
        simp [candScore]
      · cases hm : m.year with
        | none => simp [candScore, hy, hm]
        | some ry =>
            cases ry with
            | none => simp [candScore, hy, hm]
            | some v =>
                simp only [candScore, hy, if_neg hy, hm]
                constructor
                · intro h
                  split at h <;> simp_all
                · intro ⟨_, h⟩
                  simp at h

theorem candScore_eq_some (fset fsort fpart : String → String → Nat)
    (ct : String) (year : Option Int) (m : LegacyMovie)
    (h : candScore fset fsort fpart ct year m ≠ none) :
    candScore fset fsort fpart ct year m =
      some (penalizedScore fset fsort fpart ct year m) := by
  cases year with
  | none => simp [candScore, penalizedScore, yearPenalty]
  | some y =>
      by_cases hy : y = 0
      · subst hy
        cases hm : m.year with
        | none => simp [candScore, penalizedScore, yearPenalty, hm]
        | some ry =>
            cases ry <;> simp [candScore, penalizedScore, yearPenalty, hm]
      · cases hm : m.year with
        | none => simp [candScore, penalizedScore, yearPenalty, hy, hm]
        | some ry =>
            cases ry with
            | none =>
                exact absurd ((candScore_eq_none_iff _ _ _ _ _ _).mpr
                  ⟨⟨y, rfl, hy⟩, hm⟩) h
            | some v =>
                simp only [candScore, if_neg hy, hm, penalizedScore, yearPenalty]
                by_cases hd : 2 < (y - v).natAbs
                · simp [hd, hy]
                · simp [hd, hy]

theorem penalizedScore_nonneg (fset fsort fpart : String → String → Nat)
    (ct : String) (year : Option Int) (m : LegacyMovie) :
    0 ≤ penalizedScore fset fsort fpart ct year m := by
  unfold penalizedScore weightedScore
  have h1 : (0 : ℚ) ≤ (fset ct (clean_filename (m.filename.getD "")) : ℚ) :=
    Nat.cast_nonneg _
  have h2 : (0 : ℚ) ≤ (fsort ct (clean_filename (m.filename.getD "")) : ℚ) :=
    Nat.cast_nonneg _
  have h3 : (0 : ℚ) ≤ (fpart ct (clean_filename (m.filename.getD "")) : ℚ) :=
    Nat.cast_nonneg _
  have hif : (0 : ℚ) ≤ (if yearPenalty year m.year then (0.5 : ℚ) else 1) := by
    split <;> norm_num
  apply mul_nonneg _ hif
  nlinarith

theorem matchGo_found (fset fsort fpart : String → String → Nat) (θ : Int)
    (ct : String) (year : Option Int) (l : List LegacyMovie) :
    ∀ (best : ℚ) (bm : Option LegacyMovie),
    (∀ m ∈ l, candScore fset fsort fpart ct year m ≠ none) →
    ∃ p, matchGo fset fsort fpart θ ct year l best bm = some p ∧
      (p.1 = true ↔ ((θ : ℚ) ≤ best ∨
        ∃ m ∈ l, (θ : ℚ) ≤ penalizedScore fset fsort fpart ct year m)) := by
  induction l with
  | nil =>
      intro best bm _
      by_cases hb : (θ : ℚ) ≤ best
      · exact ⟨(true, bm), by rw [matchGo, if_pos hb], by simp [hb]⟩
      · exact ⟨(false, none), by rw [matchGo, if_neg hb], by simp [hb]⟩
  | cons m rest ih =>
      intro best bm hcf
      have hm := hcf m (List.mem_cons_self m rest)
      have hs := candScore_eq_some fset fsort fpart ct year m hm
      have hrest : ∀ m' ∈ rest, candScore fset fsort fpart ct year m' ≠ none :=
        fun m' hm' => hcf m' (List.mem_cons_of_mem m hm')
      simp only [matchGo, hs]
      by_cases hlt : best < penalizedScore fset fsort fpart ct year m
      · rw [if_pos hlt]
        obtain ⟨p, hp, hiff⟩ := ih (penalizedScore fset fsort fpart ct year m) (some m) hrest
        refine ⟨p, hp, hiff.trans ?_⟩
        constructor
        · rintro (h | ⟨m', hm', hle⟩)
          · exact Or.inr ⟨m, List.mem_cons_self m rest, h⟩
          · exact Or.inr ⟨m', List.mem_cons_of_mem m hm', hle⟩
        · rintro (h | ⟨m', hm', hle⟩)
          · exact Or.inl (h.trans hlt.le)
          · rcases List.mem_cons.mp hm' with h' | h'
            · exact Or.inl (h' ▸ hle)
            · exact Or.inr ⟨m', h', hle⟩
      · rw [if_neg hlt]
        push_neg at hlt
        obtain ⟨p, hp, hiff⟩ := ih best bm hrest
        refine ⟨p, hp, hiff.trans ?_⟩
        constructor
        · rintro (h | ⟨m', hm', hle⟩)
          · exact Or.inl h
          · exact Or.inr ⟨m', List.mem_cons_of_mem m hm', hle⟩
        · rintro (h | ⟨m', hm', hle⟩)
          · exact Or.inl h
          · rcases List.mem_cons.mp hm' with h' | h'
            · exact Or.inl ((h' ▸ hle).trans hlt)
            · exact Or.inr ⟨m', h', hle⟩

/-- C1, amended: for a non-empty candidate list on which no `TypeError` is
raised, `match_movie` returns a result whose decision is `available` if and
only if some candidate's *penalized* score — the weighted sum
`0.5*tokenSet + 0.3*tokenSort + 0.2*partial`, halved when both years are
known and differ by more than 2 — reaches the threshold (equivalently, the
maximum such score does). -/
theorem c1_weighted_threshold (fset fsort fpart : String → String → Nat)
    (θ : Int) (title : String) (year : Option Int) (legacy : List LegacyMovie)
    (hne : legacy ≠ [])
    (hcf : ∀ m ∈ legacy,
      candScore fset fsort fpart (clean_filename title) year m ≠ none) :
    ∃ p, match_movie fset fsort fpart θ title year legacy = some p ∧
      (p.1 = true ↔ ∃ m ∈ legacy,
        (θ : ℚ) ≤ penalizedScore fset fsort fpart (clean_filename title) year m) := by
  obtain ⟨p, hp, hiff⟩ :=
    matchGo_found fset fsort fpart θ (clean_filename title) year legacy 0 none hcf
  refine ⟨p, ?_, hiff.trans ?_⟩
  · rw [match_movie, if_neg hne]
    exact hp
  · constructor
    · rintro (h | h)
      · obtain ⟨m, hm⟩ := List.exists_mem_of_ne_nil legacy hne
        exact ⟨m, hm, h.trans (penalizedScore_nonneg fset fsort fpart _ year m)⟩
      · exact h
    · exact Or.inr

/-- Witness for C1's amended theorem at a concrete input: one candidate,
no years, all ratios 100. -/
theorem c1_weighted_threshold_witness :
    ∃ p, match_movie (fun _ _ => 100) (fun _ _ => 100) (fun _ _ => 100) 90 "a"
        none [⟨some "a", none⟩] = some p ∧
      (p.1 = true ↔ ∃ m ∈ [(⟨some "a", none⟩ : LegacyMovie)],
        (90 : ℚ) ≤ penalizedScore (fun _ _ => 100) (fun _ _ => 100)
          (fun _ _ => 100) (clean_filename "a") none m) :=
  c1_weighted_threshold (fun _ _ => 100) (fun _ _ => 100) (fun _ _ => 100) 90 "a"
    none [⟨some "a", none⟩] (by decide) (by intro m _; simp [candScore])

/-- C7, amended (and exact failure characterization): `match_movie` raises
(`none`) precisely when the query year is truthy and some candidate's
`year` key holds null; on all other inputs, including an empty candidate
list and candidates without a `year` key, it returns a result. -/
theorem c7_totality (fset fsort fpart : String → String → Nat) (θ : Int)
    (title : String) (year : Option Int) (legacy : List LegacyMovie) :
    match_movie fset fsort fpart θ title year legacy = none ↔
      (∃ y, year = some y ∧ y ≠ 0) ∧ ∃ m ∈ legacy, m.year = some none := by
  by_cases hne : legacy = []
  · subst hne
    simp [match_movie]
  · rw [match_movie, if_neg hne]
    have hgo : ∀ (l : List LegacyMovie) (best : ℚ) (bm : Option LegacyMovie),
        matchGo fset fsort fpart θ (clean_filename title) year l best bm = none ↔
          ∃ m ∈ l, candScore fset fsort fpart (clean_filename title) year m = none := by
      intro l
      induction l with
      | nil =>
          intro best bm
          rw [matchGo]
          constructor
          · intro h
            split at h <;> simp_all
          · rintro ⟨m, hm, -⟩
            exact absurd hm (List.not_mem_nil m)
      | cons m rest ih =>
          intro best bm
          cases hc : candScore fset fsort fpart (clean_filename title) year m with
          | none =>
              simp only [matchGo, hc]
              exact ⟨fun _ => ⟨m, List.mem_cons_self m rest, hc⟩, fun _ => trivial⟩
          | some s =>
              simp only [matchGo, hc]
              constructor
              · intro h
                have hex : ∃ m' ∈ rest,
                    candScore fset fsort fpart (clean_filename title) year m' = none := by
                  by_cases hbs : best < s
                  · rw [if_pos hbs] at h
                    exact (ih s (some m)).mp h
                  · rw [if_neg hbs] at h
                    exact (ih best bm).mp h
                obtain ⟨m', hm', hc'⟩ := hex
                exact ⟨m', List.mem_cons_of_mem m hm', hc'⟩
              · rintro ⟨m', hm', hc'⟩
                rcases List.mem_cons.mp hm' with h' | h'
                · rw [h'] at hc'
                  rw [hc'] at hc
                  exact absurd hc (by simp)
                · by_cases hbs : best < s
                  · rw [if_pos hbs]
                    exact (ih s (some m)).mpr ⟨m', h', hc'⟩
                  · rw [if_neg hbs]
                    exact (ih best bm).mpr ⟨m', h', hc'⟩
    rw [hgo]
    constructor
    · rintro ⟨m, hm, hc⟩
      obtain ⟨hy, hmy⟩ := (candScore_eq_none_iff _ _ _ _ _ _).mp hc
      exact ⟨hy, m, hm, hmy⟩
    · rintro ⟨hy, m, hm, hmy⟩
      exact ⟨m, hm, (candScore_eq_none_iff _ _ _ _ _ _).mpr ⟨hy, hmy⟩⟩

/-- C1, counterexample: the availability decision is not `max weighted
score ≥ threshold`.  With identical normalized titles all three ratios are
100, so the claimed weighted score is 100 ≥ 90, yet the candidate year 2010
differs from the query year 2000 by more than 2, the code halves the score
to 50, and the decision is `unavailable`. -/
theorem c1_counterexample :
    match_movie (fun _ _ => 100) (fun _ _ => 100) (fun _ _ => 100) 90 "a"
      (some 2000) [⟨some "a", some (some 2010)⟩] = some (false, none) ∧
    (90 : ℚ) ≤ weightedScore (fun _ _ => 100) (fun _ _ => 100) (fun _ _ => 100)
      (clean_filename "a") (clean_filename ((some "a").getD "")) := by
  constructor
  · simp only [match_movie, matchGo, candScore, weightedScore]
    norm_num
  · norm_num [weightedScore]

/-- C8, amended: `cancelRequest` removes the request iff it exists and
belongs to the given requester — regardless of its status, pending or not;
it returns whether a removal occurred (of exactly one record), and is a
no-op, not an error, otherwise. -/
theorem c8_cancel_spec (reqs : List Request) (rid : Nat) (uid : Int) :
    ((delete_request reqs rid uid).1 = true ↔
      ∃ r ∈ reqs, r.req_id = rid ∧ r.user_id = uid) ∧
    ((delete_request reqs rid uid).1 = false →
      (delete_request reqs rid uid).2 = reqs) ∧
    ((delete_request reqs rid uid).1 = true →
      (delete_request reqs rid uid).2.length + 1 = reqs.length) := by
  refine ⟨?_, ?_, ?_⟩
  · simp [delete_request, List.any_eq_true]
  · intro h
    simp only [delete_request, List.any_eq_false] at h ⊢
    refine List.eraseP_of_forall_not ?_
    intro r hr
    exact h r hr
  · intro h
    simp only [delete_request, List.any_eq_true] at h
    obtain ⟨r, hr, hp⟩ := h
    simp only [delete_request]
    exact @List.length_eraseP_add_one _
      (fun x => x.req_id == rid && x.user_id == uid) reqs r hr hp

/-- Witness for C8 at a concrete input: cancelling an existing pending
request of the right owner removes exactly it. -/
theorem c8_cancel_spec_witness :
    (delete_request [⟨0, 1, 5, "t", none, Status.pending, 0⟩] 0 1).1 = true ∧
    (delete_request [⟨0, 1, 5, "t", none, Status.pending, 0⟩] 0 1).2.length + 1 = 1 := by
  have h := c8_cancel_spec [⟨0, 1, 5, "t", none, Status.pending, 0⟩] 0 1
  have h1 : (delete_request [⟨0, 1, 5, "t", none, Status.pending, 0⟩] 0 1).1 = true :=
    h.1.mpr ⟨⟨0, 1, 5, "t", none, Status.pending, 0⟩, List.mem_singleton_self _, rfl, rfl⟩
  exact ⟨h1, h.2.2 h1⟩

/-! ### Lemmas about `check_user_quota` and the quota invariant -/

theorem mem_insertDesc (r x : Request) (l : List Request) :
    x ∈ insertDesc r l ↔ x = r ∨ x ∈ l := by
  induction l with
  | nil => simp [insertDesc]
  | cons y s ih =>
      by_cases h : y.created_at ≤ r.created_at
      · simp [insertDesc, h]
      · simp only [insertDesc, if_neg h, List.mem_cons, ih]
        tauto

theorem pairwise_insertDesc (r : Request) (l : List Request)
    (h : l.Pairwise fun a b => b.created_at ≤ a.created_at) :
    (insertDesc r l).Pairwise fun a b => b.created_at ≤ a.created_at := by
  induction l with
  | nil => simp [insertDesc]
  | cons x s ih =>
      rw [List.pairwise_cons] at h
      by_cases hle : x.created_at ≤ r.created_at
      · rw [insertDesc, if_pos hle]
        refine List.Pairwise.cons ?_ (List.Pairwise.cons h.1 h.2)
        intro y hy
        rcases List.mem_cons.mp hy with h' | h'
        · exact h' ▸ hle
        · exact (h.1 y h').trans hle
      · rw [insertDesc, if_neg hle]
        refine List.Pairwise.cons ?_ (ih h.2)
        intro y hy
        rcases (mem_insertDesc r y s).mp hy with h' | h'
        · exact h' ▸ Nat.le_of_lt (Nat.lt_of_not_le hle)
        · exact h.1 y h'

theorem pairwise_sortByCreatedDesc (l : List Request) :
    (sortByCreatedDesc l).Pairwise fun a b => b.created_at ≤ a.created_at := by
  induction l with
  | nil => exact List.Pairwise.nil
  | cons x s ih => exact pairwise_insertDesc x _ ih

theorem mem_sortByCreatedDesc (l : List Request) (x : Request) :
    x ∈ sortByCreatedDesc l ↔ x ∈ l := by
  induction l with
  | nil => simp [sortByCreatedDesc]
  | cons y s ih =>
      show x ∈ insertDesc y (sortByCreatedDesc s) ↔ _
      rw [mem_insertDesc, ih, List.mem_cons]

theorem length_sortByCreatedDesc (l : List Request) :
    (sortByCreatedDesc l).length = l.length := by
  induction l with
  | nil => rfl
  | cons y s ih =>
      show (insertDesc y (sortByCreatedDesc s)).length = s.length + 1
      rw [← ih]
      generalize sortByCreatedDesc s = t
      induction t with
      | nil => rfl
      | cons z u ihz =>
          by_cases h : z.created_at ≤ y.created_at
          · simp [insertDesc, h]
          · simp only [insertDesc, if_neg h, List.length_cons]
            omega

/-- `can_request` is equivalent to the true pending count being under the
quota, even though the query reads at most `quota` records. -/
theorem check_can_iff (quota : Nat) (reqs : List Request) (uid : Int) :
    (check_user_quota quota reqs uid).1 = true ↔ pendingCount reqs uid < quota := by
  show decide _ = true ↔ _
  rw [decide_eq_true_iff, List.length_take, length_sortByCreatedDesc]
  unfold pendingCount
  omega

/-- C9, confirmed: `checkQuota` returns the requester's pending requests
ordered by creation time descending, at most `quota` of them, with
`canRequest` true iff the returned `pendingCount` is under the quota
(equivalently, iff the requester's true pending count is); and in the
concrete scenario with quota 3, after 3 creates a 4th admission attempt
observes `canRequest = false`, and after cancelling one pending request it
observes `canRequest = true` again. -/
theorem c9_check_quota :
    (∀ (quota : Nat) (reqs : List Request) (uid : Int),
      ((check_user_quota quota reqs uid).2.2.Pairwise
        fun a b => b.created_at ≤ a.created_at) ∧
      (check_user_quota quota reqs uid).2.2.length ≤ quota ∧
      (∀ r ∈ (check_user_quota quota reqs uid).2.2,
        r.user_id = uid ∧ r.status = Status.pending) ∧
      ((check_user_quota quota reqs uid).1 = true ↔
        (check_user_quota quota reqs uid).2.1 < quota) ∧
      ((check_user_quota quota reqs uid).1 = true ↔
        pendingCount reqs uid < quota)) ∧
    (check_user_quota 3
      (((List.replicate 3 (LifeOp.create 1 5 "t" none)).foldl rawStep emptyDB).reqs)
      1).1 = false ∧
    (check_user_quota 3
      ((rawStep ((List.replicate 3 (LifeOp.create 1 5 "t" none)).foldl rawStep emptyDB)
        (LifeOp.cancel 0 1)).reqs) 1).1 = true := by
  refine ⟨?_, by decide, by decide⟩
  intro quota reqs uid
  refine ⟨?_, ?_, ?_, ?_, check_can_iff quota reqs uid⟩
  · exact (pairwise_sortByCreatedDesc _).sublist (List.take_sublist quota _)
  · exact List.length_take_le quota _
  · intro r hr
    have hmem : r ∈ reqs.filter fun x => x.user_id == uid && x.status == Status.pending := by
      rw [← mem_sortByCreatedDesc]
      exact (List.take_sublist quota _).subset hr
    have := (List.mem_filter.mp hmem).2
    simp only [Bool.and_eq_true, beq_iff_eq] at this
    exact this
  · show decide _ = true ↔ _
    rw [decide_eq_true_iff]
    exact Iff.rfl

/-- Witness for C9 at concrete inputs. -/
theorem c9_check_quota_witness :
    (check_user_quota 2 [⟨0, 1, 5, "t", none, Status.pending, 0⟩,
        ⟨1, 1, 6, "u", none, Status.pending, 1⟩,
        ⟨2, 1, 7, "v", none, Status.pending, 2⟩] 1).2.2.length ≤ 2 ∧
    ((check_user_quota 2 [⟨0, 1, 5, "t", none, Status.pending, 0⟩,
        ⟨1, 1, 6, "u", none, Status.pending, 1⟩,
        ⟨2, 1, 7, "v", none, Status.pending, 2⟩] 1).1 = true ↔
      pendingCount [⟨0, 1, 5, "t", none, Status.pending, 0⟩,
        ⟨1, 1, 6, "u", none, Status.pending, 1⟩,
        ⟨2, 1, 7, "v", none, Status.pending, 2⟩] 1 < 2) :=
  ⟨(c9_check_quota.1 2 _ 1).2.1, (c9_check_quota.1 2 _ 1).2.2.2.2⟩

/-! ### Quota-invariant preservation -/

theorem pendingCount_append (l1 l2 : List Request) (uid : Int) :
    pendingCount (l1 ++ l2) uid = pendingCount l1 uid + pendingCount l2 uid := by
  unfold pendingCount
  rw [List.filter_append, List.length_append]

theorem pendingCount_update_le (reqs : List Request) (rid : Nat) (st : Status)
    (hst : st ≠ Status.pending) (uid : Int) :
    pendingCount (update_request_status reqs rid st) uid ≤ pendingCount reqs uid := by
  induction reqs with
  | nil => exact Nat.le_refl _
  | cons r rs ih =>
      rw [update_request_status]
      by_cases h : r.req_id = rid
      · rw [if_pos h]
        show pendingCount ({ r with status := st } :: rs) uid ≤ pendingCount (r :: rs) uid
        unfold pendingCount
        rw [List.filter_cons, List.filter_cons]
        have hnew : (({ r with status := st } : Request).user_id == uid &&
            ({ r with status := st } : Request).status == Status.pending) = false := by
          have h2 : (({ r with status := st } : Request).status == Status.pending) =
              false := by
            simpa [beq_eq_false_iff_ne] using hst
          rw [h2, Bool.and_false]
        rw [hnew]
        by_cases hold : (r.user_id == uid && r.status == Status.pending) = true
        · rw [if_pos hold]
          simp only [List.length_cons]
          exact Nat.le_succ _
        · rw [if_neg hold]
          exact Nat.le_refl _
      · rw [if_neg h]
        show pendingCount (r :: update_request_status rs rid st) uid ≤
          pendingCount (r :: rs) uid
        unfold pendingCount
        rw [List.filter_cons, List.filter_cons]
        by_cases hold : (r.user_id == uid && r.status == Status.pending) = true
        · rw [if_pos hold, if_pos hold]
          simp only [List.length_cons]
          exact Nat.succ_le_succ ih
        · rw [if_neg hold, if_neg hold]
          exact ih

theorem pendingCount_eraseP_le (reqs : List Request) (p : Request → Bool) (uid : Int) :
    pendingCount (reqs.eraseP p) uid ≤ pendingCount reqs uid := by
  unfold pendingCount
  exact ((List.eraseP_sublist reqs).filter _).length_le

theorem guardedStep_preserves (quota : Nat) (db : DBState) (op : LifeOp)
    (hop : ∀ rid st, op = LifeOp.setStatus rid st → st ≠ Status.pending)
    (hinv : ∀ uid, pendingCount db.reqs uid ≤ quota) :
    ∀ uid, pendingCount (guardedStep quota db op).reqs uid ≤ quota := by
  intro uid
  cases op with
  | create u tid title year =>
      rw [guardedStep]
      by_cases hc : (check_user_quota quota db.reqs u).1 = true
      · rw [if_pos hc]
        have hlt := (check_can_iff quota db.reqs u).mp hc
        show pendingCount
          (db.reqs ++ [⟨db.nextId, u, tid, title, year, Status.pending, db.clock⟩])
          uid ≤ quota
        rw [pendingCount_append]
        by_cases hequ : u = uid
        · subst hequ
          have h1 : pendingCount
              [(⟨db.nextId, u, tid, title, year, Status.pending, db.clock⟩ :
                Request)] u = 1 := by
            unfold pendingCount
            simp [List.filter_cons]
          rw [h1]
          omega
        · have h0 : pendingCount
              [(⟨db.nextId, u, tid, title, year, Status.pending, db.clock⟩ :
                Request)] uid = 0 := by
            unfold pendingCount
            simp [List.filter_cons, hequ]
          rw [h0]
          have := hinv uid
          omega
      · rw [if_neg hc]
        exact hinv uid
  | cancel rid u =>
      exact Nat.le_trans (pendingCount_eraseP_le db.reqs _ uid) (hinv uid)
  | setStatus rid st =>
      exact Nat.le_trans
        (pendingCount_update_le db.reqs rid st (hop rid st rfl) uid) (hinv uid)

/-- C4, amended: the quota invariant holds across every sequence of
lifecycle operations in which each `createRequest` is admitted only after
`checkQuota` granted `canRequest` (the admission pattern of the handlers),
and each `setStatus` targets completed or rejected (as all callers do):
starting from any state satisfying the invariant, no requester's pending
count ever exceeds the quota.  Unguarded `createRequest` alone violates it
(see the counterexample). -/
theorem c4_quota_invariant (quota : Nat) (ops : List LifeOp) (db : DBState)
    (hinv : ∀ uid, pendingCount db.reqs uid ≤ quota)
    (hset : ∀ op ∈ ops, ∀ rid st, op = LifeOp.setStatus rid st →
      st ≠ Status.pending) :
    ∀ uid, pendingCount ((ops.foldl (guardedStep quota) db).reqs) uid ≤ quota := by
  induction ops generalizing db with
  | nil => exact hinv
  | cons op rest ih =>
      rw [List.foldl_cons]
      exact ih (guardedStep quota db op)
        (guardedStep_preserves quota db op
          (hset op (List.mem_cons_self op rest)) hinv)
        (fun op' hop' => hset op' (List.mem_cons_of_mem op hop'))

/-- Witness for C4's amended theorem: four guarded creates and a guarded
cancel from the empty state keep requester 1's pending count within quota
3. -/
theorem c4_quota_invariant_witness :
    pendingCount
      (([LifeOp.create 1 5 "t" none, LifeOp.create 1 6 "u" none,
         LifeOp.create 1 7 "v" none, LifeOp.create 1 8 "w" none,
         LifeOp.cancel 0 1].foldl (guardedStep 3) emptyDB).reqs) 1 ≤ 3 :=
  c4_quota_invariant 3
    [LifeOp.create 1 5 "t" none, LifeOp.create 1 6 "u" none,
     LifeOp.create 1 7 "v" none, LifeOp.create 1 8 "w" none,
     LifeOp.cancel 0 1] emptyDB
    (fun _ => Nat.zero_le 3)
    (by
      intro op hop rid st heq
      subst heq
      simp [List.mem_cons] at hop)
    1

/-! ### Structure of normalized output (towards conditional idempotence) -/

theorem map_fix {α : Type} (f : α → α) (l : List α) (h : ∀ c ∈ l, f c = c) :
    l.map f = l :=
  (List.map_congr_left h).trans (List.map_id l)

theorem splitWsAux_ne_nil (s acc : List Char) (w : List Char)
    (hw : w ∈ splitWsAux s acc) : w ≠ [] := by
  induction s generalizing acc with
  | nil =>
      rw [splitWsAux] at hw
      split at hw
      · exact absurd hw (List.not_mem_nil w)
      · rename_i hacc
        rw [List.mem_singleton] at hw
        subst hw
        simpa using hacc
  | cons x t ih =>
      rw [splitWsAux] at hw
      split at hw
      · split at hw
        · exact ih [] hw
        · rename_i hacc
          rcases List.mem_cons.mp hw with h' | h'
          · subst h'
            simpa using hacc
          · exact ih [] h'
      · exact ih _ hw

theorem splitWsAux_chars (s : List Char) :
    ∀ (acc : List Char) (w : List Char) (c : Char), w ∈ splitWsAux s acc → c ∈ w →
      (c ∈ s ∧ isSpaceChar c = false) ∨ c ∈ acc := by
  induction s with
  | nil =>
      intro acc w c hw hc
      rw [splitWsAux] at hw
      split at hw
      · exact absurd hw (List.not_mem_nil w)
      · rw [List.mem_singleton] at hw
        subst hw
        exact Or.inr (List.mem_reverse.mp hc)
  | cons x t ih =>
      intro acc w c hw hc
      rw [splitWsAux] at hw
      split at hw
      · rename_i hx
        split at hw
        · rcases ih [] w c hw hc with ⟨h1, h2⟩ | h2
          · exact Or.inl ⟨List.mem_cons_of_mem x h1, h2⟩
          · exact absurd h2 (List.not_mem_nil c)
        · rcases List.mem_cons.mp hw with h' | h'
          · subst h'
            exact Or.inr (List.mem_reverse.mp hc)
          · rcases ih [] w c h' hc with ⟨h1, h2⟩ | h2
            · exact Or.inl ⟨List.mem_cons_of_mem x h1, h2⟩
            · exact absurd h2 (List.not_mem_nil c)
      · rename_i hx
        rcases ih (x :: acc) w c hw hc with ⟨h1, h2⟩ | h2
        · exact Or.inl ⟨List.mem_cons_of_mem x h1, h2⟩
        · rcases List.mem_cons.mp h2 with h' | h'
          · subst h'
            exact Or.inl ⟨List.mem_cons_self c t, by simpa using hx⟩
          · exact Or.inr h'

theorem matchAtoms_suffix (as : List Atom) :
    ∀ (s r : List Char), matchAtoms as s = some r → r.IsSuffix s := by
  induction as with
  | nil =>
      intro s r h
      rw [matchAtoms] at h
      injection h with h
      exact h ▸ List.suffix_refl s
  | cons a as ih =>
      intro s r h
      cases a with
      | lit c =>
          cases s with
          | nil => exact absurd h (by rw [matchAtoms]; simp)
          | cons x s' =>
              rw [matchAtoms] at h
              split at h
              · exact (ih s' r h).trans (List.suffix_cons x s')
              · exact absurd h (by simp)
      | cls cs =>
          cases s with
          | nil => exact absurd h (by rw [matchAtoms]; simp)
          | cons x s' =>
              rw [matchAtoms] at h
              split at h
              · exact (ih s' r h).trans (List.suffix_cons x s')
              · exact absurd h (by simp)
      | optCls cs =>
          cases s with
          | nil => exact ih [] r h
          | cons x s' =>
              rw [matchAtoms] at h
              split at h
              · split at h
                · rename_i r' hr'
                  injection h with h
                  exact h ▸ (ih s' r' hr').trans (List.suffix_cons x s')
                · exact ih (x :: s') r h
              · exact ih (x :: s') r h
      | optLit c =>
          cases s with
          | nil => exact ih [] r h
          | cons x s' =>
              rw [matchAtoms] at h
              split at h
              · split at h
                · rename_i r' hr'
                  injection h with h
                  exact h ▸ (ih s' r' hr').trans (List.suffix_cons x s')
                · exact ih (x :: s') r h
              · exact ih (x :: s') r h
      | optAny =>
          cases s with
          | nil => exact ih [] r h
          | cons x s' =>
              rw [matchAtoms] at h
              split at h
              · exact ih (x :: s') r h
              · split at h
                · rename_i r' hr'
                  injection h with h
                  exact h ▸ (ih s' r' hr').trans (List.suffix_cons x s')
                · exact ih (x :: s') r h

theorem matchPat_suffix (p : Pat) (s r : List Char) (h : matchPat p s = some r) :
    r.IsSuffix s := by
  rw [matchPat] at h
  split at h
  · exact absurd h (by simp)
  · rename_i rest ha
    have hs := matchAtoms_suffix p.atoms s rest ha
    split at h
    · split at h
      · injection h with h
        exact h ▸ hs
      · exact absurd h (by simp)
    · injection h with h
      exact h ▸ hs

theorem scanClose_suffix (s : List Char) :
    ∀ r, scanClose s = some r → r.IsSuffix s := by
  induction s with
  | nil => intro r h; exact absurd h (by rw [scanClose]; simp)
  | cons x t ih =>
      intro r h
      rw [scanClose] at h
      split at h
      · injection h with h
        exact h ▸ List.suffix_cons x t
      · exact ((ih r h).trans (List.suffix_cons x t))

theorem matchGroup_suffix (s r : List Char) (h : matchGroup s = some r) :
    r.IsSuffix s := by
  cases s with
  | nil => simp [matchGroup] at h
  | cons x t =>
      cases t with
      | nil => simp [matchGroup] at h
      | cons y u =>
          simp only [matchGroup] at h
          split at h
          · split at h
            · simp at h
            · exact ((scanClose_suffix u r h).trans
                ((List.suffix_cons y u).trans (List.suffix_cons x (y :: u))))
          · simp at h

theorem scrubFuel_subset (m : List Char → Option (List Char))
    (hm : ∀ t r, m t = some r → r.IsSuffix t) :
    ∀ (n : Nat) (s : List Char) (c : Char), c ∈ scrubFuel m n s → c ∈ s := by
  intro n
  induction n with
  | zero => intro s c hc; exact hc
  | succ n ih =>
      intro s c hc
      cases s with
      | nil => exact hc
      | cons x s' =>
          rw [scrubFuel] at hc
          cases hmm : m (x :: s') with
          | some rest =>
              simp only [hmm] at hc
              split at hc
              · exact (hm _ _ hmm).subset (ih rest c hc)
              · rcases List.mem_cons.mp hc with h' | h'
                · exact h' ▸ List.mem_cons_self x s'
                · exact List.mem_cons_of_mem x (ih s' c h')
          | none =>
              rw [hmm] at hc
              rcases List.mem_cons.mp hc with h' | h'
              · exact h' ▸ List.mem_cons_self x s'
              · exact List.mem_cons_of_mem x (ih s' c h')

theorem scrub_subset (m : List Char → Option (List Char))
    (hm : ∀ t r, m t = some r → r.IsSuffix t)
    (s : List Char) (c : Char) (hc : c ∈ scrub m s) : c ∈ s :=
  scrubFuel_subset m hm s.length s c hc

theorem applyPats_subset (ps : List Pat) :
    ∀ (s : List Char) (c : Char), c ∈ applyPats ps s → c ∈ s := by
  induction ps with
  | nil => intro s c hc; exact hc
  | cons p ps ih =>
      intro s c hc
      have h1 : c ∈ scrub (matchPat p) s :=
        ih (scrub (matchPat p) s) c hc
      exact scrub_subset (matchPat p) (matchPat_suffix p) s c h1

theorem scrubFuel_fix (m : List Char → Option (List Char)) :
    ∀ (n : Nat) (s : List Char), (∀ t, t.IsSuffix s → m t = none) →
      scrubFuel m n s = s := by
  intro n
  induction n with
  | zero => intro s _; rfl
  | succ n ih =>
      intro s hnone
      cases s with
      | nil => rfl
      | cons x s' =>
          rw [scrubFuel, hnone (x :: s') (List.suffix_refl _)]
          rw [ih s' fun t ht => hnone t (ht.trans (List.suffix_cons x s'))]

theorem scrub_fix (m : List Char → Option (List Char)) (s : List Char)
    (hnone : ∀ t, t.IsSuffix s → m t = none) : scrub m s = s :=
  scrubFuel_fix m s.length s hnone

theorem applyPats_fix (ps : List Pat) :
    ∀ (s : List Char), (∀ p ∈ ps, scrub (matchPat p) s = s) → applyPats ps s = s := by
  induction ps with
  | nil => intro s _; rfl
  | cons p ps ih =>
      intro s h
      show applyPats ps (scrub (matchPat p) s) = s
      rw [h p (List.mem_cons_self p ps)]
      exact ih s fun q hq => h q (List.mem_cons_of_mem p hq)

theorem mem_joinWords (ws : List (List Char)) (c : Char) (hc : c ∈ joinWords ws) :
    (∃ w ∈ ws, c ∈ w) ∨ c = ' ' := by
  induction ws with
  | nil => exact absurd hc (List.not_mem_nil c)
  | cons w ws ih =>
      cases ws with
      | nil => exact Or.inl ⟨w, List.mem_cons_self w [], hc⟩
      | cons w' ws' =>
          have hc2 : c ∈ w ++ ' ' :: joinWords (w' :: ws') := hc
          rcases List.mem_append.mp hc2 with h' | h'
          · exact Or.inl ⟨w, List.mem_cons_self w _, h'⟩
          · rcases List.mem_cons.mp h' with h'' | h''
            · exact Or.inr h''
            · rcases ih h'' with ⟨v, hv, hcv⟩ | h3
              · exact Or.inl ⟨v, List.mem_cons_of_mem w hv, hcv⟩
              · exact Or.inr h3

theorem joinWords_cons_head (a : Char) (t : List Char) (ws : List (List Char)) :
    ∃ u, joinWords ((a :: t) :: ws) = a :: u := by
  cases ws with
  | nil => exact ⟨t, rfl⟩
  | cons w' ws' => exact ⟨t ++ ' ' :: joinWords (w' :: ws'), rfl⟩

theorem collapse_cons_nonspace (x : Char) (t : List Char)
    (hx : isSpaceChar x = false) : collapseWs (x :: t) = x :: collapseWs t := by
  cases t with
  | nil => simp [collapseWs, hx]
  | cons y s => rw [collapseWs, if_neg (by simp [hx])]

theorem collapse_nonspace (l : List Char) (h : ∀ c ∈ l, isSpaceChar c = false) :
    collapseWs l = l := by
  induction l with
  | nil => rfl
  | cons x t ih =>
      rw [collapse_cons_nonspace x t (h x (List.mem_cons_self x t))]
      rw [ih fun c hc => h c (List.mem_cons_of_mem x hc)]

theorem collapse_append_word (w : List Char)
    (h : ∀ c ∈ w, isSpaceChar c = false) (t : List Char) :
    collapseWs (w ++ t) = w ++ collapseWs t := by
  induction w with
  | nil => rfl
  | cons a w' ih =>
      rw [List.cons_append,
        collapse_cons_nonspace a (w' ++ t) (h a (List.mem_cons_self a w')),
        ih fun c hc => h c (List.mem_cons_of_mem a hc)]
      rfl

theorem collapse_join (ws : List (List Char))
    (h : ∀ w ∈ ws, w ≠ [] ∧ ∀ c ∈ w, isSpaceChar c = false) :
    collapseWs (joinWords ws) = joinWords ws := by
  induction ws with
  | nil => rfl
  | cons w ws ih =>
      cases ws with
      | nil =>
          exact collapse_nonspace w (h w (List.mem_cons_self w [])).2
      | cons w' ws' =>
          have hw' := h w' (List.mem_cons_of_mem w (List.mem_cons_self w' ws'))
          obtain ⟨a, t, hat⟩ : ∃ a t, w' = a :: t := by
            cases w' with
            | nil => exact absurd rfl hw'.1
            | cons a t => exact ⟨a, t, rfl⟩
          subst hat
          obtain ⟨u, hu⟩ := joinWords_cons_head a t ws'
          have hia : isSpaceChar a = false := hw'.2 a (List.mem_cons_self a t)
          have hrest : ∀ v ∈ (a :: t) :: ws', v ≠ [] ∧ ∀ c ∈ v, isSpaceChar c = false :=
            fun v hv => h v (List.mem_cons_of_mem w hv)
          show collapseWs (w ++ ' ' :: joinWords ((a :: t) :: ws')) =
            w ++ ' ' :: joinWords ((a :: t) :: ws')
          rw [collapse_append_word w (h w (List.mem_cons_self w _)).2]
          congr 1
          rw [hu, collapseWs, if_pos (by decide), if_neg (by simp [hia])]
          have hihj := ih hrest
          rw [hu] at hihj
          rw [hihj]

theorem joinWords_head_not_space (ws : List (List Char))
    (h : ∀ w ∈ ws, w ≠ [] ∧ ∀ c ∈ w, isSpaceChar c = false) :
    ∀ c, (joinWords ws).head? = some c → isSpaceChar c = false := by
  intro c hc
  cases ws with
  | nil => exact absurd hc (by simp [joinWords])
  | cons w ws' =>
      have hw := h w (List.mem_cons_self w ws')
      obtain ⟨a, t, hat⟩ : ∃ a t, w = a :: t := by
        cases w with
        | nil => exact absurd rfl hw.1
        | cons a t => exact ⟨a, t, rfl⟩
      subst hat
      cases ws' with
      | nil =>
          have : c = a := by
            have : (a :: t).head? = some c := hc
            simpa using this.symm
          exact this ▸ hw.2 a (List.mem_cons_self a t)
      | cons w' ws'' =>
          obtain ⟨u, hu⟩ := joinWords_cons_head a t ws''
          have hhd : (joinWords ((a :: t) :: w' :: ws'')).head? = some a := by
            show ((a :: t) ++ ' ' :: joinWords (w' :: ws'')).head? = some a
            rfl
          rw [hhd] at hc
          injection hc with hc
          exact hc ▸ hw.2 a (List.mem_cons_self a t)

theorem joinWords_ne_nil (ws : List (List Char)) (hne : ws ≠ [])
    (h : ∀ w ∈ ws, w ≠ []) : joinWords ws ≠ [] := by
  cases ws with
  | nil => exact absurd rfl hne
  | cons w ws' =>
      have hw := h w (List.mem_cons_self w ws')
      cases ws' with
      | nil => exact hw
      | cons w' ws'' =>
          show w ++ ' ' :: joinWords (w' :: ws'') ≠ []
          simp

theorem joinWords_getLast_not_space (ws : List (List Char))
    (h : ∀ w ∈ ws, w ≠ [] ∧ ∀ c ∈ w, isSpaceChar c = false) :
    ∀ c, (joinWords ws).getLast? = some c → isSpaceChar c = false := by
  induction ws with
  | nil => intro c hc; exact absurd hc (by simp [joinWords])
  | cons w ws' ih =>
      intro c hc
      cases ws' with
      | nil =>
          have hc' : w.getLast? = some c := hc
          have : c ∈ w := List.mem_of_mem_getLast? (by rw [hc']; rfl)
          exact (h w (List.mem_cons_self w [])).2 c this
      | cons w' ws'' =>
          have hrest : ∀ v ∈ w' :: ws'', v ≠ [] ∧ ∀ c ∈ v, isSpaceChar c = false :=
            fun v hv => h v (List.mem_cons_of_mem w hv)
          have hjne : joinWords (w' :: ws'') ≠ [] :=
            joinWords_ne_nil (w' :: ws'') (by simp) fun v hv => (hrest v hv).1
          have hc2 : (w ++ ' ' :: joinWords (w' :: ws'')).getLast? = some c := hc
          rw [@List.getLast?_append_of_ne_nil _ w (' ' :: joinWords (w' :: ws''))
            (by simp)] at hc2
          have hc3 : ([' '] ++ joinWords (w' :: ws'')).getLast? = some c := hc2
          rw [List.getLast?_append_of_ne_nil [' '] hjne] at hc3
          exact ih hrest c hc3

theorem dropWhile_eq_self_of_head (p : Char → Bool) (l : List Char)
    (h : ∀ c, l.head? = some c → p c = false) : l.dropWhile p = l := by
  cases l with
  | nil => rfl
  | cons a t =>
      rw [List.dropWhile_cons, h a rfl]
      simp

theorem stripWs_fix (l : List Char)
    (hh : ∀ c, l.head? = some c → isSpaceChar c = false)
    (hl : ∀ c, l.getLast? = some c → isSpaceChar c = false) : stripWs l = l := by
  unfold stripWs
  rw [dropWhile_eq_self_of_head isSpaceChar l hh]
  rw [dropWhile_eq_self_of_head isSpaceChar l.reverse
    (fun c hc => hl c (by rwa [List.head?_reverse] at hc))]
  exact List.reverse_reverse l

theorem splitWsAux_word (w : List Char) (hw : ∀ c ∈ w, isSpaceChar c = false) :
    ∀ (s acc : List Char), splitWsAux (w ++ s) acc = splitWsAux s (w.reverse ++ acc) := by
  induction w with
  | nil => intro s acc; rfl
  | cons a w' ih =>
      intro s acc
      have ha : isSpaceChar a = false := hw a (List.mem_cons_self a w')
      show splitWsAux (a :: (w' ++ s)) acc = _
      rw [splitWsAux, if_neg (by simp [ha])]
      rw [ih (fun c hc => hw c (List.mem_cons_of_mem a hc)) s (a :: acc)]
      congr 1
      simp

theorem splitWs_join (ws : List (List Char))
    (h : ∀ w ∈ ws, w ≠ [] ∧ ∀ c ∈ w, isSpaceChar c = false) :
    splitWs (joinWords ws) = ws := by
  induction ws with
  | nil => rfl
  | cons w ws' ih =>
      have hw := h w (List.mem_cons_self w ws')
      cases ws' with
      | nil =>
          show splitWsAux w [] = [w]
          have := splitWsAux_word w hw.2 [] []
          rw [List.append_nil] at this
          rw [this, splitWsAux, List.append_nil]
          rw [if_neg (by simpa using hw.1), List.reverse_reverse]
      | cons w' ws'' =>
          have hrest : ∀ v ∈ w' :: ws'', v ≠ [] ∧ ∀ c ∈ v, isSpaceChar c = false :=
            fun v hv => h v (List.mem_cons_of_mem w hv)
          show splitWsAux (w ++ ' ' :: joinWords (w' :: ws'')) [] = w :: w' :: ws''
          rw [splitWsAux_word w hw.2 (' ' :: joinWords (w' :: ws'')) [],
            List.append_nil, splitWsAux, if_pos (by decide),
            if_neg (by simpa using hw.1), List.reverse_reverse]
          exact congrArg (w :: ·) (ih hrest)

theorem stripWs_subset (l : List Char) (c : Char) (hc : c ∈ stripWs l) : c ∈ l := by
  unfold stripWs at hc
  rw [List.mem_reverse] at hc
  have h1 := (List.dropWhile_sublist (l := (l.dropWhile isSpaceChar).reverse)
    (p := isSpaceChar)).subset hc
  rw [List.mem_reverse] at h1
  exact (List.dropWhile_sublist (l := l) (p := isSpaceChar)).subset h1

theorem collapse_chars (l : List Char) (c : Char) (hc : c ∈ collapseWs l) :
    c ∈ l ∨ c = ' ' := by
  induction l with
  | nil => exact absurd hc (List.not_mem_nil c)
  | cons x t ih =>
      cases t with
      | nil =>
          rw [collapseWs] at hc
          split at hc
          · exact Or.inr (List.mem_singleton.mp hc)
          · exact Or.inl hc
      | cons y s =>
          rw [collapseWs] at hc
          split at hc
          · split at hc
            · rcases ih hc with h' | h'
              · exact Or.inl (List.mem_cons_of_mem x h')
              · exact Or.inr h'
            · rcases List.mem_cons.mp hc with h' | h'
              · exact Or.inr h'
              · rcases ih h' with h'' | h''
                · exact Or.inl (List.mem_cons_of_mem x h'')
                · exact Or.inr h''
          · rcases List.mem_cons.mp hc with h' | h'
            · exact Or.inl (h' ▸ List.mem_cons_self x (y :: s))
            · rcases ih h' with h'' | h''
              · exact Or.inl (List.mem_cons_of_mem x h'')
              · exact Or.inr h''

theorem mapNonWord_chars (l : List Char) (c : Char)
    (hc : c ∈ l.map fun c => if isWordChar c || isSpaceChar c then c else ' ') :
    (c ∈ l ∧ (isWordChar c || isSpaceChar c) = true) ∨ c = ' ' := by
  rcases List.mem_map.mp hc with ⟨c0, hc0, heq⟩
  by_cases h : (isWordChar c0 || isSpaceChar c0) = true
  · rw [if_pos h] at heq
    exact Or.inl ⟨heq ▸ hc0, heq ▸ h⟩
  · rw [if_neg h] at heq
    exact Or.inr heq.symm

theorem lowered_fix (s : List Char) (c : Char) (hc : c ∈ s.map lowerChar) :
    lowerChar c = c := by
  rcases List.mem_map.mp hc with ⟨c0, _, heq⟩
  exact heq ▸ lowerChar_lowerChar c0

/-- Every token produced by `cleanCore` is non-empty, whitespace-free,
made of word characters fixed by lowercasing, and not a stop word. -/
theorem cleanCore_tokens (s : List Char) :
    ∀ w ∈ cleanCore s, w ≠ [] ∧ (∀ c ∈ w, isSpaceChar c = false) ∧
      (∀ c ∈ w, isWordChar c = true) ∧ (∀ c ∈ w, lowerChar c = c) ∧
      STOP_WORDS.contains w = false := by
  intro w hw
  simp only [cleanCore] at hw
  rw [List.mem_filter] at hw
  obtain ⟨hsplit, hpred⟩ := hw
  have hne : w ≠ [] := splitWsAux_ne_nil _ [] w hsplit
  have hchars := fun c hc => splitWsAux_chars _ [] w c hsplit hc
  have hz : ∀ c ∈ w, c ∈ stripWs (collapseWs
      ((applyPats CONTAINER_PATTERNS (applyPats QUALITY_PATTERNS
        (scrub matchGroup (s.map lowerChar)))).map
        fun c => if isWordChar c || isSpaceChar c then c else ' ')) ∧
      isSpaceChar c = false := by
    intro c hc
    rcases hchars c hc with ⟨h1, h2⟩ | h2
    · exact ⟨h1, h2⟩
    · exact absurd h2 (List.not_mem_nil c)
  have hns : ∀ c ∈ w, isSpaceChar c = false := fun c hc => (hz c hc).2
  have hsp : ∀ c ∈ w, c ∈ (applyPats CONTAINER_PATTERNS (applyPats QUALITY_PATTERNS
      (scrub matchGroup (s.map lowerChar)))).map
        (fun c => if isWordChar c || isSpaceChar c then c else ' ') := by
    intro c hc
    have h1 := stripWs_subset _ c (hz c hc).1
    rcases collapse_chars _ c h1 with h2 | h2
    · exact h2
    · exact absurd (h2 ▸ hns c hc) (by decide)
  refine ⟨hne, hns, ?_, ?_, by simpa using hpred⟩
  · intro c hc
    rcases mapNonWord_chars _ c (hsp c hc) with ⟨-, h2⟩ | h2
    · have h2' : isWordChar c = true ∨ isSpaceChar c = true := by simpa using h2
      rcases h2' with h3 | h3
      · exact h3
      · exact absurd h3 (by simp [hns c hc])
    · exact absurd (h2 ▸ hns c hc) (by decide)
  · intro c hc
    rcases mapNonWord_chars _ c (hsp c hc) with ⟨h1, -⟩ | h2
    · have h3 := applyPats_subset CONTAINER_PATTERNS _ c h1
      have h4 := applyPats_subset QUALITY_PATTERNS _ c h3
      have h5 := scrub_subset matchGroup matchGroup_suffix _ c h4
      exact lowered_fix s c h5
    · exact absurd (h2 ▸ hns c hc) (by decide)

/-- Re-running the normalization pipeline on the join of an already
normalized token list is the identity, provided the descriptor-stripping
pass does not fire again. -/
theorem cleanCore_join_fix (ws : List (List Char))
    (htok : ∀ w ∈ ws, w ≠ [] ∧ (∀ c ∈ w, isSpaceChar c = false) ∧
      (∀ c ∈ w, isWordChar c = true) ∧ (∀ c ∈ w, lowerChar c = c) ∧
      STOP_WORDS.contains w = false)
    (hq : applyPats QUALITY_PATTERNS (joinWords ws) = joinWords ws) :
    cleanCore (joinWords ws) = ws := by
  have htok' : ∀ w ∈ ws, w ≠ [] ∧ ∀ c ∈ w, isSpaceChar c = false :=
    fun w hw => ⟨(htok w hw).1, (htok w hw).2.1⟩
  have hychar : ∀ c ∈ joinWords ws,
      (isWordChar c = true ∧ lowerChar c = c) ∨ c = ' ' := by
    intro c hc
    rcases mem_joinWords ws c hc with ⟨w, hw, hcw⟩ | h'
    · exact Or.inl ⟨(htok w hw).2.2.1 c hcw, (htok w hw).2.2.2.1 c hcw⟩
    · exact Or.inr h'
  have hnb : ∀ c ∈ joinWords ws, c ≠ '[' ∧ c ≠ '.' := by
    intro c hc
    rcases hychar c hc with ⟨hw, -⟩ | h'
    · constructor <;> intro he <;> subst he <;> exact absurd hw (by decide)
    · subst h'
      exact ⟨by decide, by decide⟩
  have h1 : (joinWords ws).map lowerChar = joinWords ws := by
    apply map_fix
    intro c hc
    rcases hychar c hc with ⟨-, hl⟩ | h'
    · exact hl
    · subst h'
      rfl
  have h2 : scrub matchGroup (joinWords ws) = joinWords ws := by
    apply scrub_fix
    intro t ht
    cases t with
    | nil => rfl
    | cons a t' =>
        have ha : a ∈ joinWords ws := ht.subset (List.mem_cons_self a t')
        simp only [matchGroup]
        rw [if_neg (hnb a ha).1]
  have hcont : applyPats CONTAINER_PATTERNS (joinWords ws) = joinWords ws := by
    apply applyPats_fix
    intro p hp
    apply scrub_fix
    intro t ht
    have hph : p.atoms.head? = some (Atom.lit '.') := by
      fin_cases hp <;> rfl
    obtain ⟨as, has⟩ : ∃ as, p.atoms = Atom.lit '.' :: as := by
      cases hA : p.atoms with
      | nil => rw [hA] at hph; exact absurd hph (by simp)
      | cons a as =>
          rw [hA] at hph
          injection hph with hph
          exact ⟨as, by rw [hph]⟩
    have hma : matchAtoms p.atoms t = none := by
      rw [has]
      cases t with
      | nil => rfl
      | cons a t' =>
          have ha : a ∈ joinWords ws := ht.subset (List.mem_cons_self a t')
          rw [matchAtoms, if_neg (hnb a ha).2]
    rw [matchPat, hma]
  have hmap : (joinWords ws).map
      (fun c => if isWordChar c || isSpaceChar c then c else ' ') = joinWords ws := by
    apply map_fix
    intro c hc
    rcases hychar c hc with ⟨hw, -⟩ | h'
    · rw [if_pos (by simp [hw])]
    · subst h'
      rw [if_pos (by decide)]
  have hcollapse := collapse_join ws htok'
  have hstrip := stripWs_fix (joinWords ws)
    (joinWords_head_not_space ws htok') (joinWords_getLast_not_space ws htok')
  have hsplit := splitWs_join ws htok'
  have hfilter : ws.filter (fun w => !(STOP_WORDS.contains w)) = ws :=
    List.filter_eq_self.mpr fun w hw => by simpa using (htok w hw).2.2.2.2
  simp only [cleanCore]
  rw [h1, h2, hq, hcont, hmap, hcollapse, hstrip, hsplit, hfilter]

theorem mk_toList (l : List Char) : (String.mk l).toList = l := rfl

/-- C5, amended: normalization is idempotent on every input whose
normalized form is left unchanged by the release-descriptor stripping pass
(which is the only pass that can re-fire on its own output; see the
counterexample for the general failure). -/
theorem c5_idem_conditional (x : String)
    (hq : applyPats QUALITY_PATTERNS (clean_filename x).toList =
      (clean_filename x).toList) :
    clean_filename (clean_filename x) = clean_filename x := by
  by_cases hx0 : clean_filename x = ""
  · rw [hx0]
    rfl
  have hxne : x ≠ "" := by
    intro h
    exact hx0 (by rw [h]; rfl)
  have hy : (clean_filename x).toList = joinWords (cleanCore x.toList) := by
    rw [clean_filename, if_neg hxne, mk_toList]
  have hcore : cleanCore (clean_filename x).toList = cleanCore x.toList := by
    rw [hy]
    exact cleanCore_join_fix (cleanCore x.toList) (cleanCore_tokens x.toList)
      (hy ▸ hq)
  rw [clean_filename, if_neg hx0, hcore]
  conv_rhs => rw [clean_filename, if_neg hxne]

/-- Witness for C5's conditional idempotence at a concrete input whose
normalized form contains no descriptor pattern. -/
theorem c5_idem_conditional_witness :
    applyPats QUALITY_PATTERNS (clean_filename "Hello World").toList =
      (clean_filename "Hello World").toList ∧
    clean_filename (clean_filename "Hello World") = clean_filename "Hello World" :=
  ⟨by decide, c5_idem_conditional "Hello World" (by decide)⟩

end MovieBot
